import Mathlib

/-!
Verification of the guard-tag permission system against its specification.

Part A embeds `src/resources/language_scope_loader.py` (the Scope Definition
Resolver): association-list dictionaries, the recursive `resolve_language_scopes`
with a visited set (Python `set` modelled as `Finset String`), the memoizing
`get_all_scopes`, and `is_node_type_in_scope`.  The Python `print` warnings are
modelled as an explicit diagnostics list returned alongside the result.

Part B models the Permission Timeline Builder from the specification (the
builder's own code is not part of the sources here, only its test fixtures).
-/

/-- One language entry of the configuration: an optional `extends` parent id
and the language's own scope-name to node-type-list mapping, in declaration
order (Python dicts preserve insertion order). -/
structure LangConfig where
  extends_ : Option String
  scopes : List (String × List String)
deriving DecidableEq

/-- The `languages` object of the configuration: language id keyed entries. -/
abbrev ScopeConfig := List (String × LangConfig)

/-- A resolved scope mapping: scope name to node-type list. -/
abbrev Scopes := List (String × List String)

/-- Python dict lookup (`d[k]` / `d.get(k)`): first entry with the key. -/
def dictGet {α : Type} : List (String × α) → String → Option α
  | [], _ => none
  | (k, v) :: rest, key => if k = key then some v else dictGet rest key

/-- Python `d.get(k, [])`. -/
def dictGetD (m : Scopes) (k : String) : List String :=
  (dictGet m k).getD []

/-- One step of the merge loop in `resolve_language_scopes`: Python's
`scopes[key].extend(values)` when the key is present, else `scopes[key] = list(values)`
(insertion appends at the end, as in an insertion-ordered dict). -/
def dictInsertOrExtend (m : Scopes) (k : String) (v : List String) : Scopes :=
  if m.any (fun p => p.1 = k) then
    m.map (fun p => if p.1 = k then (p.1, p.2 ++ v) else p)
  else
    m ++ [(k, v)]

/-- The merge loop of `resolve_language_scopes`: fold the language's own
scope entries into the (copied) parent scopes. -/
def mergeScopes (parent : Scopes) (own : List (String × List String)) : Scopes :=
  own.foldl (fun m kv => dictInsertOrExtend m kv.1 kv.2) parent

/-- The warning printed on circular-dependency detection. -/
def circularMsg (lang_id : String) : String :=
  "Warning: Circular dependency detected for language: " ++ lang_id

/-- Number of configuration entries whose language id is not yet visited;
this bounds the remaining recursion depth of `resolve_language_scopes`. -/
def countNotVisited (config : ScopeConfig) (v : Finset String) : Nat :=
  match config with
  | [] => 0
  | p :: rest => (if p.1 ∈ v then 0 else 1) + countNotVisited rest v

/-- Fuel-indexed body of `resolve_language_scopes`.  The fuel is a proof
device only: `resolveAux_eq_resolve` below shows any fuel above the number of
unvisited language ids gives the same result, so the top-level definition
`resolve_language_scopes` (fuel `|config| + 1`) satisfies the fuel-free
recursion of the Python source (`resolve_language_scopes_unfold`).
Returns the resolved scopes together with the diagnostics (Python prints). -/
def resolveAux (config : ScopeConfig) : Nat → String → Finset String → Scopes × List String
  | 0, _, _ => ([], [])
  | fuel+1, lang_id, visited =>
    if lang_id ∈ visited then
      ([], [circularMsg lang_id])
    else
      match dictGet config lang_id with
      | none => ([], [])
      | some lc =>
        let pr : Scopes × List String :=
          match lc.extends_ with
          | some parent => resolveAux config fuel parent (insert lang_id visited)
          | none => ([], [])
        (mergeScopes pr.1 lc.scopes, pr.2)

/-- `resolve_language_scopes` of `language_scope_loader.py`: resolve the scopes
of a language, following `extends` links, with a visited set for circular
dependency detection.  First component: the resolved mapping; second: the
emitted diagnostics. -/
def resolve_language_scopes (config : ScopeConfig) (lang_id : String)
    (visited : Finset String) : Scopes × List String :=
  resolveAux config (config.length + 1) lang_id visited

/-- Whether the `extends` walk starting at `lang_id` runs into an already
visited language (the condition under which the code prints the circular
dependency warning). -/
def walkCyclicAux (config : ScopeConfig) : Nat → String → Finset String → Bool
  | 0, _, _ => false
  | fuel+1, lang_id, visited =>
    if lang_id ∈ visited then
      true
    else
      match dictGet config lang_id with
      | none => false
      | some lc =>
        match lc.extends_ with
        | some parent => walkCyclicAux config fuel parent (insert lang_id visited)
        | none => false

/-- A language id whose `extends` chain cycles back into itself. -/
def walkCyclic (config : ScopeConfig) (lang_id : String) : Bool :=
  walkCyclicAux config (config.length + 1) lang_id ∅

/-- `get_all_scopes` without the cache: resolve every configured language. -/
def computeAllScopes (config : ScopeConfig) : List (String × Scopes) :=
  config.map (fun p => (p.1, (resolve_language_scopes config p.1 ∅).1))

/-- The loader's state: the (already loaded) configuration and the
`_resolved_scopes` memo field. -/
structure LoaderState where
  config : ScopeConfig
  resolved_scopes : Option (List (String × Scopes))
deriving DecidableEq

/-- The `_resolved_scopes` field is either unpopulated or holds exactly the
value `get_all_scopes` computes for the configuration. -/
def StateWF (s : LoaderState) : Prop :=
  s.resolved_scopes = none ∨ s.resolved_scopes = some (computeAllScopes s.config)

/-- `get_all_scopes`: return the memoized resolution if present, else compute
it for every language and store it. -/
def get_all_scopesS (s : LoaderState) : List (String × Scopes) × LoaderState :=
  match s.resolved_scopes with
  | some r => (r, s)
  | none =>
    let r := computeAllScopes s.config
    (r, { s with resolved_scopes := some r })

/-- `get_language_scopes`: look a language up in the resolved-scopes table;
`none` when the language is not supported. -/
def get_language_scopesS (s : LoaderState) (lang_id : String) :
    Option Scopes × LoaderState :=
  let p := get_all_scopesS s
  (dictGet p.1 lang_id, p.2)

/-- Pure view of `get_language_scopes` (fresh loader, configuration fixed). -/
def get_language_scopes (config : ScopeConfig) (lang_id : String) : Option Scopes :=
  dictGet (computeAllScopes config) lang_id

/-- `is_node_type_in_scope`: Python's `if not lang_scopes: return False`
covers both `None` and the empty dict; then membership in
`lang_scopescopes.get(scope, [])`. -/
def is_node_type_in_scope (config : ScopeConfig)
    (lang_id node_type scope : String) : Bool :=
  match get_language_scopes config lang_id with
  | none => false
  | some m =>
    if m = [] then false
    else (dictGetD m scope).contains node_type

/-! ### Part B: the Permission Timeline Builder, modelled from the specification

The builder itself ships outside these sources (only its test fixtures are
present), so the following definitions are modelled from the specification
(§3 data model, §4.3 span resolution for line counts and context scopes,
§4.4 the per-actor region-stack state machine). -/

/-- Modelled from the spec: §3 — `Permission: one of Read, Write, None, Context`. -/
inductive Permission where
  | read
  | write
  | noAccess
  | context
deriving DecidableEq

/-- Modelled from the spec: §3 — `ActorKey: (kind, optional identifier)`,
equal iff both fields match exactly. -/
structure ActorKey where
  kind : String
  identifier : Option String
deriving DecidableEq

/-- Modelled from the spec: §3 — `ScopeSpec`: unbounded, a line count, or a
semantic scope name. -/
inductive ScopeSpec where
  | unbounded
  | lineCount (n : Nat)
  | semantic (name : String)
deriving DecidableEq

/-- Modelled from the spec: §3 — tag anchor kind. -/
inductive Anchor where
  | standaloneComment
  | inlineTrailing
deriving DecidableEq

/-- Modelled from the spec: §3 — one parsed guard tag occurrence. -/
structure GuardTag where
  line : Nat
  actor : ActorKey
  permission : Permission
  scope : ScopeSpec
  anchor : Anchor
deriving DecidableEq

/-- Modelled from the spec: §3 Timeline — a line's state is a Permission or
the implicit unguarded state distinct from all four permissions. -/
inductive LineState where
  | unguarded
  | perm (p : Permission)
deriving DecidableEq

/-- Modelled from the spec: §4.4 — a guard tag whose span has already been
resolved (§4.3): `endLine = none` means unbounded, `some e` means the last
governed line is `e` (reversion happens on the following line). -/
structure ResolvedTag where
  line : Nat
  actor : ActorKey
  permission : Permission
  endLine : Option Nat
  anchor : Anchor
deriving DecidableEq

/-- Modelled from the spec: §3 Region — one active governance interval; the
`restores_to` chain is represented by the list tail of the per-actor stack. -/
structure Frame where
  permission : Permission
  startLine : Nat
  endLine : Option Nat
deriving DecidableEq

/-- Modelled from the spec: §4.4 — a region's `end` has been passed at line `l`. -/
def Frame.stale (f : Frame) (l : Nat) : Bool :=
  match f.endLine with
  | none => false
  | some e => decide (e < l)

/-- Modelled from the spec: §4.4 — pop the current region while its `end` has
been passed, restoring to `restores_to` (the stack tail), repeating while the
restored region is itself already stale. -/
def popStale (l : Nat) : List Frame → List Frame
  | [] => []
  | f :: rest => if f.stale l then popStale l rest else f :: rest

/-- Modelled from the spec: §4.4 output — the permission of the current
region, or the implicit unguarded state when no region is active. -/
def topState : List Frame → LineState
  | [] => .unguarded
  | f :: _ => .perm f.permission

/-- Modelled from the spec: §4.4 step 1–2 — push a new region capturing the
previously active region (the stack below it). -/
def pushTag (st : List Frame) (t : ResolvedTag) : List Frame :=
  ⟨t.permission, t.line, t.endLine⟩ :: st

/-- The tags anchored at a given line, in source order. -/
def tagsAt (tags : List ResolvedTag) (l : Nat) : List ResolvedTag :=
  tags.filter (fun t => t.line = l)

/-- Modelled from the spec: §4.4 — processing of one line for one actor:
pop stale regions, push inline-trailing tags of this line (their own line IS
governed), read off the line's state, then push standalone-comment tags of
this line (the declaration line itself is not governed by them). -/
def stepLine (tags : List ResolvedTag) (l : Nat) (st : List Frame) :
    LineState × List Frame :=
  let popped := popStale l st
  let afterInline :=
    ((tagsAt tags l).filter (fun t => t.anchor = .inlineTrailing)).foldl pushTag popped
  let out := topState afterInline
  let afterAll :=
    ((tagsAt tags l).filter (fun t => t.anchor = .standaloneComment)).foldl pushTag afterInline
  (out, afterAll)

/-- Modelled from the spec: §4.4 — tags are partitioned independently by
ActorKey; tags for different ActorKeys never interact. -/
def tagsFor (tags : List ResolvedTag) (actor : ActorKey) : List ResolvedTag :=
  tags.filter (fun t => t.actor = actor)

/-- The per-actor region stack after processing lines `1 .. l`. -/
def actorStack (ftags : List ResolvedTag) : Nat → List Frame
  | 0 => []
  | l+1 => (stepLine ftags (l+1) (actorStack ftags l)).2

/-- Modelled from the spec: §3 Timeline — the total function from line number
to per-actor line state produced by the single left-to-right pass. -/
def permissionAt (tags : List ResolvedTag) (actor : ActorKey) (l : Nat) : LineState :=
  match l with
  | 0 => .unguarded
  | l'+1 => (stepLine (tagsFor tags actor) (l'+1) (actorStack (tagsFor tags actor) l')).1

/-- Modelled from the spec: §4.4 steps 3–4 — for `LineCount n` at line `L` the
last governed line is `L + n`, clamped to the file's last line; unbounded tags
have no end; a semantic tag whose span is unresolved degrades to unbounded
(§4.3 failure semantics). -/
def resolveEnd (numLines : Nat) (line : Nat) (scope : ScopeSpec) : Option Nat :=
  match scope with
  | .unbounded => none
  | .lineCount n => some (min (line + n) numLines)
  | .semantic _ => none

/-- Resolve the spans of a whole tag sequence (§4.3/§4.4 pipeline). -/
def resolveTags (numLines : Nat) (tags : List GuardTag) : List ResolvedTag :=
  tags.map (fun t => ⟨t.line, t.actor, t.permission, resolveEnd numLines t.line t.scope, t.anchor⟩)

/-- Modelled from the spec: §4.3 Context — length of the maximal contiguous
run of documentation lines starting at line `l`; `doc` classifies a line as
documentation for the tag (comment of the tag's style, or part of the single
contiguous doc block).  The fuel bounds the run by the remaining file length. -/
def docRunLen (doc : Nat → Bool) : Nat → Nat → Nat
  | 0, _ => 0
  | fuel+1, l => if doc l then docRunLen doc fuel (l+1) + 1 else 0

/-- Modelled from the spec: §4.3 Context — the last line governed by a
Context tag at line `l`: the tag line plus the documentation run starting
immediately after it (the first non-documentation line is excluded). -/
def contextEnd (doc : Nat → Bool) (numLines : Nat) (l : Nat) : Nat :=
  l + docRunLen doc (numLines - l) (l + 1)

/-! ### Association-list lemmas -/

theorem dictGet_map_keys {α β : Type} (l : List (String × α)) (g : String → β) (k : String) :
    dictGet (l.map (fun p => (p.1, g p.1))) k = (dictGet l k).map (fun _ => g k) := by
  induction l with
  | nil => rfl
  | cons hd tl ih =>
    simp only [List.map, dictGet]
    by_cases h : hd.1 = k
    · subst h; simp
    · simp [h, ih]

theorem dictGet_isSome_of_any (m : Scopes) (k : String)
    (h : m.any (fun p => p.1 = k) = true) : ∃ w, dictGet m k = some w := by
  induction m with
  | nil => simp at h
  | cons hd tl ih =>
    by_cases hk : hd.1 = k
    · exact ⟨hd.2, by simp [dictGet, hk]⟩
    · simp only [List.any_cons, Bool.or_eq_true, decide_eq_true_eq] at h
      rcases h with h | h
      · exact absurd h hk
      · rcases ih h with ⟨w, hw⟩
        exact ⟨w, by simp [dictGet, hk, hw]⟩

theorem dictGet_none_of_not_any (m : Scopes) (k : String)
    (h : m.any (fun p => p.1 = k) = false) : dictGet m k = none := by
  induction m with
  | nil => rfl
  | cons hd tl ih =>
    simp only [List.any_cons, Bool.or_eq_false_iff, decide_eq_false_iff_not] at h
    simp [dictGet, h.1, ih h.2]

theorem dictGet_cons {α : Type} (k₁ : String) (v : α) (rest : List (String × α)) (k : String) :
    dictGet ((k₁, v) :: rest) k = if k₁ = k then some v else dictGet rest k := rfl

theorem dictGet_map_extend (m : Scopes) (k₀ k : String) (v₀ : List String) :
    dictGet (m.map (fun p => if p.1 = k₀ then (p.1, p.2 ++ v₀) else p)) k
      = if k = k₀ then (dictGet m k).map (fun w => w ++ v₀) else dictGet m k := by
  induction m with
  | nil => by_cases h : k = k₀ <;> simp [dictGet, h]
  | cons hd tl ih =>
    obtain ⟨k₁, w₁⟩ := hd
    simp only [List.map_cons]
    by_cases hk₀ : k₁ = k₀
    · rw [if_pos hk₀]
      by_cases hk : k₁ = k
      · rw [dictGet_cons, if_pos hk, if_pos (hk ▸ hk₀), dictGet_cons, if_pos hk]
        rfl
      · have hkk₀ : ¬ k = k₀ := fun h => hk (hk₀.trans h.symm)
        rw [dictGet_cons, if_neg hk, if_neg hkk₀, dictGet_cons, if_neg hk, ih, if_neg hkk₀]
    · rw [if_neg hk₀]
      by_cases hk : k₁ = k
      · have hkk₀ : ¬ k = k₀ := fun h => hk₀ (hk.trans h)
        rw [dictGet_cons, if_pos hk, if_neg hkk₀, dictGet_cons, if_pos hk]
      · rw [dictGet_cons, if_neg hk, ih]
        by_cases hkk₀ : k = k₀
        · rw [if_pos hkk₀, if_pos hkk₀, dictGet_cons, if_neg hk]
        · rw [if_neg hkk₀, if_neg hkk₀, dictGet_cons, if_neg hk]

theorem dictGet_append_single (m : Scopes) (k₀ k : String) (v₀ : List String) :
    dictGet (m ++ [(k₀, v₀)]) k
      = match dictGet m k with
        | some w => some w
        | none => if k₀ = k then some v₀ else none := by
  induction m with
  | nil => simp [dictGet]
  | cons hd tl ih =>
    by_cases hk : hd.1 = k
    · simp [dictGet, hk]
    · simp [dictGet, hk, ih]

/-- Full characterization of one merge step. -/
theorem dictGet_insertOrExtend (m : Scopes) (k₀ k : String) (v₀ : List String) :
    dictGet (dictInsertOrExtend m k₀ v₀) k
      = if k = k₀ then some (dictGetD m k ++ v₀) else dictGet m k := by
  unfold dictInsertOrExtend
  by_cases hany : m.any (fun p => p.1 = k₀) = true
  · rw [if_pos hany, dictGet_map_extend]
    by_cases hk : k = k₀
    · subst hk
      rcases dictGet_isSome_of_any m k hany with ⟨w, hw⟩
      simp [hw, dictGetD]
    · simp [hk]
  · rw [if_neg hany, dictGet_append_single]
    rw [Bool.not_eq_true] at hany
    have hnone := dictGet_none_of_not_any m k₀ hany
    by_cases hk : k = k₀
    · subst hk
      simp [hnone, dictGetD]
    · have hk' : ¬ k₀ = k := fun h => hk h.symm
      cases hget : dictGet m k <;> simp [hk, hk']

/-- Concatenation of the language's own node-type entries for one scope name. -/
def ownValues : List (String × List String) → String → List String
  | [], _ => []
  | (k₀, v₀) :: rest, k => if k₀ = k then v₀ ++ ownValues rest k else ownValues rest k

/-- Whether the language declares the scope name itself. -/
def ownHas : List (String × List String) → String → Bool
  | [], _ => false
  | (k₀, _) :: rest, k => if k₀ = k then true else ownHas rest k

theorem ownValues_nil_of_not_ownHas (own : List (String × List String)) (k : String)
    (h : ownHas own k = false) : ownValues own k = [] := by
  induction own with
  | nil => rfl
  | cons hd tl ih =>
    obtain ⟨k₀, v₀⟩ := hd
    by_cases hk : k₀ = k
    · simp [ownHas, hk] at h
    · simp only [ownHas, if_neg hk] at h
      simp [ownValues, hk, ih h]

/-- Full characterization of the merge loop: a key declared by the language
maps to the parent's value (default `[]`) with the own entries appended;
any other key is looked up in the parent unchanged. -/
theorem dictGet_mergeScopes (parent : Scopes) (own : List (String × List String)) (k : String) :
    dictGet (mergeScopes parent own) k
      = if ownHas own k then some (dictGetD parent k ++ ownValues own k)
        else dictGet parent k := by
  induction own generalizing parent with
  | nil => simp [mergeScopes, ownHas]
  | cons hd tl ih =>
    obtain ⟨k₀, v₀⟩ := hd
    show dictGet (mergeScopes (dictInsertOrExtend parent k₀ v₀) tl) k = _
    rw [ih]
    by_cases hk : k₀ = k
    · have hk' : k = k₀ := hk.symm
      have hOH : ownHas ((k₀, v₀) :: tl) k = true := by simp [ownHas, hk]
      have hOV : ownValues ((k₀, v₀) :: tl) k = v₀ ++ ownValues tl k := by
        simp [ownValues, hk]
      rw [if_pos hOH, hOV]
      by_cases htl : ownHas tl k = true
      · rw [if_pos htl]
        have hD : dictGetD (dictInsertOrExtend parent k₀ v₀) k = dictGetD parent k ++ v₀ := by
          simp [dictGetD, dictGet_insertOrExtend, hk']
        rw [hD, List.append_assoc]
      · rw [if_neg htl]
        rw [Bool.not_eq_true] at htl
        have hG : dictGet (dictInsertOrExtend parent k₀ v₀) k = some (dictGetD parent k ++ v₀) := by
          rw [dictGet_insertOrExtend, if_pos hk']
        rw [hG, ownValues_nil_of_not_ownHas tl k htl, List.append_nil]
    · have hk' : ¬ k = k₀ := fun h => hk h.symm
      have hOH : ownHas ((k₀, v₀) :: tl) k = ownHas tl k := by simp [ownHas, hk]
      have hOV : ownValues ((k₀, v₀) :: tl) k = ownValues tl k := by simp [ownValues, hk]
      rw [hOH, hOV]
      have hD : dictGetD (dictInsertOrExtend parent k₀ v₀) k = dictGetD parent k := by
        simp [dictGetD, dictGet_insertOrExtend, hk']
      have hG : dictGet (dictInsertOrExtend parent k₀ v₀) k = dictGet parent k := by
        rw [dictGet_insertOrExtend, if_neg hk']
      rw [hD, hG]

/-! ### Recursion-measure lemmas -/

theorem countNotVisited_le_length (config : ScopeConfig) (v : Finset String) :
    countNotVisited config v ≤ config.length := by
  induction config with
  | nil => simp [countNotVisited]
  | cons hd tl ih =>
    simp only [countNotVisited, List.length_cons]
    by_cases h : hd.1 ∈ v <;> simp [h] <;> omega

theorem countNotVisited_mono (config : ScopeConfig) (x : String) (v : Finset String) :
    countNotVisited config (insert x v) ≤ countNotVisited config v := by
  induction config with
  | nil => simp [countNotVisited]
  | cons hd tl ih =>
    simp only [countNotVisited]
    by_cases h : hd.1 ∈ v
    · have : hd.1 ∈ insert x v := Finset.mem_insert_of_mem h
      simp [h, this]; omega
    · by_cases h' : hd.1 ∈ insert x v <;> simp [h, h'] <;> omega

theorem countNotVisited_insert_lt (config : ScopeConfig) (lang_id : String)
    (v : Finset String) (lc : LangConfig)
    (hget : dictGet config lang_id = some lc) (hnv : lang_id ∉ v) :
    countNotVisited config (insert lang_id v) < countNotVisited config v := by
  induction config with
  | nil => simp [dictGet] at hget
  | cons hd tl ih =>
    simp only [countNotVisited]
    by_cases hk : hd.1 = lang_id
    · have h1 : hd.1 ∈ insert lang_id v := hk ▸ Finset.mem_insert_self lang_id v
      have h2 : hd.1 ∉ v := hk ▸ hnv
      have := countNotVisited_mono tl lang_id v
      simp [h1, h2]; omega
    · simp only [dictGet, if_neg hk] at hget
      have := ih hget
      by_cases h : hd.1 ∈ v
      · have : hd.1 ∈ insert lang_id v := Finset.mem_insert_of_mem h
        simpa [h, this] using ih hget
      · have h' : hd.1 ∉ insert lang_id v := by
          simp only [Finset.mem_insert, not_or]
          exact ⟨hk, h⟩
        simpa [h, h'] using Nat.add_lt_add_left (ih hget) 1

/-! ### Fuel sufficiency: the recursion depth of `resolve_language_scopes` is
bounded by the number of not-yet-visited language ids -/

theorem resolveAux_fuel_irrelevant (config : ScopeConfig) :
    ∀ fuel₁ fuel₂ lang_id (v : Finset String),
      countNotVisited config v < fuel₁ → countNotVisited config v < fuel₂ →
      resolveAux config fuel₁ lang_id v = resolveAux config fuel₂ lang_id v := by
  intro fuel₁
  induction fuel₁ with
  | zero => intro fuel₂ id v h1 h2; omega
  | succ f₁ ih =>
    intro fuel₂ id v h1 h2
    cases fuel₂ with
    | zero => omega
    | succ f₂ =>
      simp only [resolveAux]
      by_cases hv : id ∈ v
      · rw [if_pos hv, if_pos hv]
      · rw [if_neg hv, if_neg hv]
        cases hget : dictGet config id with
        | none => rfl
        | some lc =>
          cases hext : lc.extends_ with
          | none => simp only [hext]
          | some parent =>
            have hlt := countNotVisited_insert_lt config id v lc hget hv
            have h1' : countNotVisited config (insert id v) < f₁ := by omega
            have h2' : countNotVisited config (insert id v) < f₂ := by omega
            simp only [hext]
            rw [ih f₂ parent (insert id v) h1' h2']

theorem resolveAux_eq_resolve (config : ScopeConfig) (fuel : Nat) (lang_id : String)
    (v : Finset String) (h : countNotVisited config v < fuel) :
    resolveAux config fuel lang_id v = resolve_language_scopes config lang_id v :=
  resolveAux_fuel_irrelevant config fuel (config.length + 1) lang_id v h
    (Nat.lt_succ_of_le (countNotVisited_le_length config v))

theorem walkCyclicAux_fuel_irrelevant (config : ScopeConfig) :
    ∀ fuel₁ fuel₂ lang_id (v : Finset String),
      countNotVisited config v < fuel₁ → countNotVisited config v < fuel₂ →
      walkCyclicAux config fuel₁ lang_id v = walkCyclicAux config fuel₂ lang_id v := by
  intro fuel₁
  induction fuel₁ with
  | zero => intro fuel₂ id v h1 h2; omega
  | succ f₁ ih =>
    intro fuel₂ id v h1 h2
    cases fuel₂ with
    | zero => omega
    | succ f₂ =>
      simp only [walkCyclicAux]
      by_cases hv : id ∈ v
      · rw [if_pos hv, if_pos hv]
      · rw [if_neg hv, if_neg hv]
        cases hget : dictGet config id with
        | none => rfl
        | some lc =>
          cases hext : lc.extends_ with
          | none => simp only [hext]
          | some parent =>
            have hlt := countNotVisited_insert_lt config id v lc hget hv
            simp only [hext]
            exact ih f₂ parent (insert id v) (by omega) (by omega)

/-- The Python recursion of `resolve_language_scopes`, fuel-free: a revisited
language contributes `({}, warning)`; an unknown language contributes `{}`;
otherwise the parent's resolution (with the language added to the visited set)
is merged with the language's own scope entries, and the parent's diagnostics
are passed through. -/
theorem resolve_language_scopes_unfold (config : ScopeConfig) (lang_id : String)
    (v : Finset String) :
    resolve_language_scopes config lang_id v =
      if lang_id ∈ v then ([], [circularMsg lang_id])
      else
        match dictGet config lang_id with
        | none => ([], [])
        | some lc =>
          let pr : Scopes × List String :=
            match lc.extends_ with
            | some parent => resolve_language_scopes config parent (insert lang_id v)
            | none => ([], [])
          (mergeScopes pr.1 lc.scopes, pr.2) := by
  show resolveAux config (config.length + 1) lang_id v = _
  simp only [resolveAux]
  by_cases hv : lang_id ∈ v
  · rw [if_pos hv, if_pos hv]
  · rw [if_neg hv, if_neg hv]
    cases hget : dictGet config lang_id with
    | none => rfl
    | some lc =>
      cases hext : lc.extends_ with
      | none => simp only [hext]
      | some parent =>
        have hlt := countNotVisited_insert_lt config lang_id v lc hget hv
        have hle := countNotVisited_le_length config v
        simp only [hext]
        rw [resolveAux_eq_resolve config config.length parent (insert lang_id v) (by omega)]

/-- Marking one more language as visited does not change resolution, as long
as the `extends` walk never runs into the enlarged visited set. -/
theorem resolveAux_insert_of_not_cyclic (config : ScopeConfig) :
    ∀ fuel lang_id (v : Finset String) (x : String),
      walkCyclicAux config fuel lang_id (insert x v) = false → x ∉ v →
      resolveAux config fuel lang_id (insert x v) = resolveAux config fuel lang_id v := by
  intro fuel
  induction fuel with
  | zero => intro id v x h hx; rfl
  | succ f ih =>
    intro id v x hcyc hx
    simp only [walkCyclicAux] at hcyc
    by_cases hvx : id ∈ insert x v
    · rw [if_pos hvx] at hcyc
      simp at hcyc
    · have hv : id ∉ v := fun h => hvx (Finset.mem_insert_of_mem h)
      have hne : id ≠ x := fun h => hvx (h ▸ Finset.mem_insert_self x v)
      rw [if_neg hvx] at hcyc
      simp only [resolveAux]
      rw [if_neg hvx, if_neg hv]
      cases hget : dictGet config id with
      | none => rfl
      | some lc =>
        simp only [hget] at hcyc
        cases hext : lc.extends_ with
        | none => simp only [hext]
        | some parent =>
          simp only [hext] at hcyc
          have hcomm : insert id (insert x v) = insert x (insert id v) :=
            Finset.Insert.comm id x v
          rw [hcomm] at hcyc
          have hx' : x ∉ insert id v := by
            simp only [Finset.mem_insert, not_or]
            exact ⟨fun h => hne h.symm, hx⟩
          simp only [hext]
          rw [hcomm, ih parent (insert id v) x hcyc hx']

/-- A cyclic `extends` walk makes resolution emit at least one diagnostic,
and every diagnostic it emits is the circular-dependency warning. -/
theorem resolveAux_cyclic_diag (config : ScopeConfig) :
    ∀ fuel lang_id (v : Finset String),
      walkCyclicAux config fuel lang_id v = true →
      (resolveAux config fuel lang_id v).2 ≠ [] ∧
        ∀ m ∈ (resolveAux config fuel lang_id v).2, ∃ id, m = circularMsg id := by
  intro fuel
  induction fuel with
  | zero => intro id v h; simp [walkCyclicAux] at h
  | succ f ih =>
    intro id v hcyc
    simp only [walkCyclicAux] at hcyc
    simp only [resolveAux]
    by_cases hv : id ∈ v
    · rw [if_pos hv]
      refine ⟨by simp, ?_⟩
      intro m hm
      simp only [List.mem_singleton] at hm
      exact ⟨id, hm⟩
    · rw [if_neg hv] at hcyc ⊢
      cases hget : dictGet config id with
      | none => simp [hget] at hcyc
      | some lc =>
        simp only [hget] at hcyc
        cases hext : lc.extends_ with
        | none => simp [hext] at hcyc
        | some parent =>
          simp only [hext] at hcyc
          simp only [hext]
          exact ih parent (insert id v) hcyc

/-! ### Claims about the Scope Definition Resolver -/

/-- C7: for every language id absent from the configuration, scope resolution
returns an empty mapping (and `get_language_scopes` reports the language as
unsupported) rather than raising an error. -/
theorem claim7_unknown_language_empty (config : ScopeConfig) (lang_id : String)
    (v : Finset String) (h : dictGet config lang_id = none) :
    (resolve_language_scopes config lang_id v).1 = [] ∧
      get_language_scopes config lang_id = none := by
  constructor
  · rw [resolve_language_scopes_unfold]
    by_cases hv : lang_id ∈ v
    · rw [if_pos hv]
    · rw [if_neg hv, h]
  · show dictGet (computeAllScopes config) lang_id = none
    unfold computeAllScopes
    rw [dictGet_map_keys config (fun q => (resolve_language_scopes config q ∅).1) lang_id, h]
    rfl

/-- C7 witness: a concrete configuration without a `ruby` entry. -/
theorem claim7_unknown_language_empty_witness :
    (resolve_language_scopes [("python", ⟨none, [("func", ["function_definition"])]⟩)]
        "ruby" ∅).1 = [] ∧
      get_language_scopes [("python", ⟨none, [("func", ["function_definition"])]⟩)]
        "ruby" = none :=
  claim7_unknown_language_empty
    [("python", ⟨none, [("func", ["function_definition"])]⟩)] "ruby" ∅ (by decide)

/-- C9: resolution terminates for every configuration with recursion depth
bounded by the number of not-yet-visited language ids (for a dict-derived
configuration, the number of distinct language ids): any fuel exceeding that
count already computes `resolve_language_scopes`, and a call on an already
visited id aborts immediately with the circular-dependency diagnostic instead
of recursing. -/
theorem claim9_termination_depth_bound (config : ScopeConfig) :
    (∀ fuel lang_id (v : Finset String), countNotVisited config v < fuel →
        resolveAux config fuel lang_id v = resolve_language_scopes config lang_id v) ∧
      ∀ lang_id (v : Finset String), lang_id ∈ v →
        resolve_language_scopes config lang_id v = ([], [circularMsg lang_id]) := by
  constructor
  · intro fuel id v h
    exact resolveAux_eq_resolve config fuel id v h
  · intro id v hv
    rw [resolve_language_scopes_unfold, if_pos hv]

/-- C9 witness: depth 3 suffices for a two-language chain, and a revisited id
aborts. -/
theorem claim9_termination_depth_bound_witness :
    resolveAux [("a", ⟨some "b", []⟩), ("b", ⟨none, []⟩)] 3 "a" ∅
        = resolve_language_scopes [("a", ⟨some "b", []⟩), ("b", ⟨none, []⟩)] "a" ∅ ∧
      resolve_language_scopes [("a", ⟨some "b", []⟩), ("b", ⟨none, []⟩)] "a" {"a"}
        = ([], [circularMsg "a"]) :=
  ⟨(claim9_termination_depth_bound [("a", ⟨some "b", []⟩), ("b", ⟨none, []⟩)]).1
      3 "a" ∅ (by decide),
   (claim9_termination_depth_bound [("a", ⟨some "b", []⟩), ("b", ⟨none, []⟩)]).2
      "a" {"a"} (by decide)⟩

/-- C2 counterexample: the language `a` extends itself (its parent chain
cycles back to itself) and declares scopes of its own; resolution emits the
diagnostic and terminates, but the resolved mapping is NOT empty, refuting
the claim that such a language resolves to an empty scope mapping. -/
theorem claim2_counterexample :
    walkCyclic [("a", ⟨some "a", [("s", ["t"])]⟩)] "a" = true ∧
      (resolve_language_scopes [("a", ⟨some "a", [("s", ["t"])]⟩)] "a" ∅).1
        = [("s", ["t"])] ∧
      (resolve_language_scopes [("a", ⟨some "a", [("s", ["t"])]⟩)] "a" ∅).1 ≠ [] := by
  refine ⟨by decide, by decide, by decide⟩

/-- C2 amended: for every language id whose `extends` chain cycles back into
itself, resolution terminates, emits the circular-dependency diagnostic (and
nothing but that diagnostic), and the revisited occurrence contributes an
empty mapping — the top-level language's own mapping need not be empty. -/
theorem claim2_cycle_diagnostic (config : ScopeConfig) (lang_id : String)
    (h : walkCyclic config lang_id = true) :
    ((resolve_language_scopes config lang_id ∅).2 ≠ [] ∧
      ∀ m ∈ (resolve_language_scopes config lang_id ∅).2, ∃ id, m = circularMsg id) ∧
      ∀ id (v : Finset String), id ∈ v →
        resolve_language_scopes config id v = ([], [circularMsg id]) := by
  constructor
  · exact resolveAux_cyclic_diag config (config.length + 1) lang_id ∅ h
  · intro id v hv
    rw [resolve_language_scopes_unfold, if_pos hv]

/-- C2 witness: the self-cycle `x` extends `x`. -/
theorem claim2_cycle_diagnostic_witness :
    (resolve_language_scopes [("x", ⟨some "x", []⟩)] "x" ∅).2 ≠ [] ∧
      resolve_language_scopes [("x", ⟨some "x", []⟩)] "x" {"x"}
        = ([], [circularMsg "x"]) :=
  ⟨(claim2_cycle_diagnostic [("x", ⟨some "x", []⟩)] "x" (by decide)).1.1,
   (claim2_cycle_diagnostic [("x", ⟨some "x", []⟩)] "x" (by decide)).2 "x" {"x"}
      (by decide)⟩

/-- C6: for every configured language with an `extends` parent whose chain is
acyclic, each scope name's resolved node-type list is the parent's resolved
list with the language's own entries appended after it (parent entries
first), and every scope name the language does not declare itself is
inherited from the parent unchanged. -/
theorem claim6_inheritance_merge (config : ScopeConfig) (lang_id parent : String)
    (lc : LangConfig)
    (hget : dictGet config lang_id = some lc)
    (hext : lc.extends_ = some parent)
    (hacyc : walkCyclic config lang_id = false) :
    (∀ k, dictGetD (resolve_language_scopes config lang_id ∅).1 k
        = dictGetD (resolve_language_scopes config parent ∅).1 k
            ++ ownValues lc.scopes k) ∧
      ∀ k, ownHas lc.scopes k = false →
        dictGet (resolve_language_scopes config lang_id ∅).1 k
          = dictGet (resolve_language_scopes config parent ∅).1 k := by
  have hv : lang_id ∉ (∅ : Finset String) := Finset.not_mem_empty _
  have h1 : resolve_language_scopes config lang_id ∅
      = (mergeScopes (resolve_language_scopes config parent (insert lang_id ∅)).1 lc.scopes,
         (resolve_language_scopes config parent (insert lang_id ∅)).2) := by
    rw [resolve_language_scopes_unfold, if_neg hv]
    simp only [hget, hext]
  have hcy0 : walkCyclicAux config (config.length + 1) lang_id ∅ = false := hacyc
  simp only [walkCyclicAux, if_neg hv, hget, hext] at hcy0
  have hlt := countNotVisited_insert_lt config lang_id ∅ lc hget hv
  have hle := countNotVisited_le_length config ∅
  have hcy1 : walkCyclicAux config (config.length + 1) parent (insert lang_id ∅) = false := by
    rw [walkCyclicAux_fuel_irrelevant config (config.length + 1) config.length parent
      (insert lang_id ∅) (by omega) (by omega)]
    exact hcy0
  have hres : resolve_language_scopes config parent (insert lang_id ∅)
      = resolve_language_scopes config parent ∅ :=
    resolveAux_insert_of_not_cyclic config (config.length + 1) parent ∅ lang_id hcy1
      (Finset.not_mem_empty _)
  rw [hres] at h1
  constructor
  · intro k
    simp only [h1]
    show (dictGet (mergeScopes (resolve_language_scopes config parent ∅).1 lc.scopes) k).getD []
      = _
    rw [dictGet_mergeScopes]
    by_cases hk : ownHas lc.scopes k = true
    · rw [if_pos hk]
      rfl
    · have hk' : ownHas lc.scopes k = false := by rwa [Bool.not_eq_true] at hk
      rw [if_neg hk, ownValues_nil_of_not_ownHas lc.scopes k hk', List.append_nil]
      rfl
  · intro k hk
    simp only [h1]
    show dictGet (mergeScopes (resolve_language_scopes config parent ∅).1 lc.scopes) k = _
    rw [dictGet_mergeScopes, if_neg (by simp [hk])]

/-- C6 witness: `ts` extends `js`; `func` is merged parent-first, `cls` (only
in the parent) is inherited unchanged. -/
theorem claim6_inheritance_merge_witness :
    (dictGetD (resolve_language_scopes
        [("js", ⟨none, [("func", ["fd"]), ("cls", ["cd"])]⟩),
         ("ts", ⟨some "js", [("func", ["afd"])]⟩)] "ts" ∅).1 "func"
      = dictGetD (resolve_language_scopes
        [("js", ⟨none, [("func", ["fd"]), ("cls", ["cd"])]⟩),
         ("ts", ⟨some "js", [("func", ["afd"])]⟩)] "js" ∅).1 "func"
          ++ ownValues [("func", ["afd"])] "func") ∧
      dictGet (resolve_language_scopes
        [("js", ⟨none, [("func", ["fd"]), ("cls", ["cd"])]⟩),
         ("ts", ⟨some "js", [("func", ["afd"])]⟩)] "ts" ∅).1 "cls"
        = dictGet (resolve_language_scopes
        [("js", ⟨none, [("func", ["fd"]), ("cls", ["cd"])]⟩),
         ("ts", ⟨some "js", [("func", ["afd"])]⟩)] "js" ∅).1 "cls" :=
  ⟨(claim6_inheritance_merge
      [("js", ⟨none, [("func", ["fd"]), ("cls", ["cd"])]⟩),
       ("ts", ⟨some "js", [("func", ["afd"])]⟩)] "ts" "js"
      ⟨some "js", [("func", ["afd"])]⟩ (by decide) rfl (by decide)).1 "func",
   (claim6_inheritance_merge
      [("js", ⟨none, [("func", ["fd"]), ("cls", ["cd"])]⟩),
       ("ts", ⟨some "js", [("func", ["afd"])]⟩)] "ts" "js"
      ⟨some "js", [("func", ["afd"])]⟩ (by decide) rfl (by decide)).2 "cls" (by decide)⟩

/-- C8: scope resolution is pure and cached per language id: on a well-formed
loader state, `get_all_scopes` returns exactly the pure resolution of the
configuration; calling it again on the returned state hands back the cached
result with the state unchanged (no recomputation); `get_language_scopes`
agrees with the pure view; and any two well-formed loaders with the same
configuration return equal mappings for the same language id. -/
theorem claim8_caching_pure (s : LoaderState) (lang_id : String) (h : StateWF s) :
    (get_all_scopesS s).1 = computeAllScopes s.config ∧
      get_all_scopesS (get_all_scopesS s).2 = ((get_all_scopesS s).1, (get_all_scopesS s).2) ∧
      (get_language_scopesS s lang_id).1 = get_language_scopes s.config lang_id ∧
      ∀ s' : LoaderState, StateWF s' → s'.config = s.config →
        (get_language_scopesS s' lang_id).1 = (get_language_scopesS s lang_id).1 := by
  have key : ∀ t : LoaderState, StateWF t →
      (get_all_scopesS t).1 = computeAllScopes t.config := by
    intro t ht
    rcases ht with ht | ht <;> simp [get_all_scopesS, ht]
  have key2 : ∀ t : LoaderState, StateWF t →
      get_all_scopesS (get_all_scopesS t).2 = ((get_all_scopesS t).1, (get_all_scopesS t).2) := by
    intro t ht
    rcases ht with ht | ht <;> simp [get_all_scopesS, ht]
  refine ⟨key s h, key2 s h, ?_, ?_⟩
  · show dictGet (get_all_scopesS s).1 lang_id = _
    rw [key s h]
    rfl
  · intro s' h' hc
    show dictGet (get_all_scopesS s').1 lang_id = dictGet (get_all_scopesS s).1 lang_id
    rw [key s h, key s' h', hc]

/-- C8 witness: a fresh loader over a one-language configuration. -/
theorem claim8_caching_pure_witness :
    (get_all_scopesS ⟨[("py", ⟨none, [("func", ["fd"])]⟩)], none⟩).1
        = computeAllScopes [("py", ⟨none, [("func", ["fd"])]⟩)] ∧
      get_all_scopesS (get_all_scopesS ⟨[("py", ⟨none, [("func", ["fd"])]⟩)], none⟩).2
        = ((get_all_scopesS ⟨[("py", ⟨none, [("func", ["fd"])]⟩)], none⟩).1,
           (get_all_scopesS ⟨[("py", ⟨none, [("func", ["fd"])]⟩)], none⟩).2) ∧
      (get_language_scopesS ⟨[("py", ⟨none, [("func", ["fd"])]⟩)], none⟩ "py").1
        = get_language_scopes [("py", ⟨none, [("func", ["fd"])]⟩)] "py" := by
  have h := claim8_caching_pure ⟨[("py", ⟨none, [("func", ["fd"])]⟩)], none⟩ "py" (Or.inl rfl)
  exact ⟨h.1, h.2.1, h.2.2.1⟩

/-- C10: `is_node_type_in_scope` is total (a Lean function) and returns
`false` whenever the language id is unknown, the language resolves to an
empty mapping, or the scope name is absent from the resolved mapping. -/
theorem claim10_node_type_scope_false (config : ScopeConfig)
    (lang_id node_type scope : String) :
    (dictGet config lang_id = none →
        is_node_type_in_scope config lang_id node_type scope = false) ∧
      (get_language_scopes config lang_id = some [] →
        is_node_type_in_scope config lang_id node_type scope = false) ∧
      ∀ m, get_language_scopes config lang_id = some m → dictGet m scope = none →
        is_node_type_in_scope config lang_id node_type scope = false := by
  refine ⟨?_, ?_, ?_⟩
  · intro h
    have hg : get_language_scopes config lang_id = none := by
      show dictGet (computeAllScopes config) lang_id = none
      unfold computeAllScopes
      rw [dictGet_map_keys config (fun q => (resolve_language_scopes config q ∅).1) lang_id, h]
      rfl
    simp [is_node_type_in_scope, hg]
  · intro h
    simp [is_node_type_in_scope, h]
  · intro m hm hscope
    simp only [is_node_type_in_scope, hm]
    by_cases hempty : m = []
    · rw [if_pos hempty]
    · rw [if_neg hempty]
      show (dictGetD m scope).contains node_type = false
      unfold dictGetD
      rw [hscope]
      rfl

/-- C10 witness: an unknown language, an empty-mapping language, and an
absent scope name all yield `false`. -/
theorem claim10_node_type_scope_false_witness :
    is_node_type_in_scope
        [("py", ⟨none, [("func", ["fd"])]⟩), ("nil", ⟨none, []⟩)] "zz" "fd" "func" = false ∧
      is_node_type_in_scope
        [("py", ⟨none, [("func", ["fd"])]⟩), ("nil", ⟨none, []⟩)] "nil" "fd" "func" = false ∧
      is_node_type_in_scope
        [("py", ⟨none, [("func", ["fd"])]⟩), ("nil", ⟨none, []⟩)] "py" "fd" "cls" = false :=
  ⟨(claim10_node_type_scope_false
      [("py", ⟨none, [("func", ["fd"])]⟩), ("nil", ⟨none, []⟩)] "zz" "fd" "func").1 (by decide),
   (claim10_node_type_scope_false
      [("py", ⟨none, [("func", ["fd"])]⟩), ("nil", ⟨none, []⟩)] "nil" "fd" "func").2.1 (by decide),
   (claim10_node_type_scope_false
      [("py", ⟨none, [("func", ["fd"])]⟩), ("nil", ⟨none, []⟩)] "py" "fd" "cls").2.2
      [("func", ["fd"])] (by decide) (by decide)⟩

/-! ### Timeline builder lemmas -/

theorem tagsAt_cons (t : ResolvedTag) (ts : List ResolvedTag) (l : Nat) :
    tagsAt (t :: ts) l = if t.line = l then t :: tagsAt ts l else tagsAt ts l := by
  simp [tagsAt, List.filter_cons]

theorem tagsFor_cons (t : ResolvedTag) (ts : List ResolvedTag) (a : ActorKey) :
    tagsFor (t :: ts) a = if t.actor = a then t :: tagsFor ts a else tagsFor ts a := by
  simp [tagsFor, List.filter_cons]

theorem tagsFor_append_none (tags1 tags2 : List ResolvedTag) (a : ActorKey)
    (h : ∀ t ∈ tags2, t.actor ≠ a) :
    tagsFor (tags1 ++ tags2) a = tagsFor tags1 a := by
  have h2 : tagsFor tags2 a = [] := by
    unfold tagsFor
    exact List.filter_eq_nil_iff.mpr (by simpa using h)
  unfold tagsFor at h2 ⊢
  rw [List.filter_append, h2, List.append_nil]

theorem permissionAt_congr (tags tags' : List ResolvedTag) (a : ActorKey)
    (h : tagsFor tags a = tagsFor tags' a) (l : Nat) :
    permissionAt tags a l = permissionAt tags' a l := by
  cases l with
  | zero => rfl
  | succ l => simp only [permissionAt, h]

theorem popStale_cons_none (l : Nat) (p : Permission) (s : Nat) (rest : List Frame) :
    popStale l (⟨p, s, none⟩ :: rest) = ⟨p, s, none⟩ :: rest := by
  simp [popStale, Frame.stale]

theorem popStale_cons_live (l : Nat) (p : Permission) (s e : Nat) (rest : List Frame)
    (h : l ≤ e) : popStale l (⟨p, s, some e⟩ :: rest) = ⟨p, s, some e⟩ :: rest := by
  have h' : ¬ e < l := by omega
  simp [popStale, Frame.stale, h']

theorem popStale_cons_stale (l : Nat) (p : Permission) (s e : Nat) (rest : List Frame)
    (h : e < l) : popStale l (⟨p, s, some e⟩ :: rest) = popStale l rest := by
  simp [popStale, Frame.stale, h]

theorem stepLine_no_tags (tags : List ResolvedTag) (l : Nat) (st : List Frame)
    (h : tagsAt tags l = []) :
    stepLine tags l st = (topState (popStale l st), popStale l st) := by
  simp [stepLine, h]

theorem stepLine_single_standalone (tags : List ResolvedTag) (l : Nat) (st : List Frame)
    (t : ResolvedTag) (h : tagsAt tags l = [t]) (ha : t.anchor = .standaloneComment) :
    stepLine tags l st = (topState (popStale l st), pushTag (popStale l st) t) := by
  simp [stepLine, h, List.filter_cons, ha]

theorem stepLine_fst_standalone (tags : List ResolvedTag) (l : Nat) (st : List Frame)
    (h : ∀ t ∈ tagsAt tags l, t.anchor = Anchor.standaloneComment) :
    (stepLine tags l st).1 = topState (popStale l st) := by
  have hf : (tagsAt tags l).filter (fun t => t.anchor = Anchor.inlineTrailing) = [] := by
    rw [List.filter_eq_nil_iff]
    intro t ht
    simp [h t ht]
  simp [stepLine, hf]

/-- Closed form of the region stack for a single standalone tag with a
bounded span: pushed at its declaration line, dropped once its end passes. -/
theorem single_region_stack (a : ActorKey) (p : Permission) (L e : Nat)
    (h1 : 1 ≤ L) (h2 : L ≤ e) (l : Nat) :
    actorStack [⟨L, a, p, some e, Anchor.standaloneComment⟩] l
      = if L ≤ l ∧ l ≤ e then [⟨p, L, some e⟩] else [] := by
  induction l with
  | zero =>
    rw [if_neg (by omega)]
    rfl
  | succ l ih =>
    show (stepLine [⟨L, a, p, some e, Anchor.standaloneComment⟩] (l+1)
        (actorStack [⟨L, a, p, some e, Anchor.standaloneComment⟩] l)).2 = _
    rw [ih]
    rcases Nat.lt_or_ge (l+1) L with hA | hA
    · -- before the region
      have hts : tagsAt [(⟨L, a, p, some e, Anchor.standaloneComment⟩ : ResolvedTag)] (l+1) = [] := by
        rw [tagsAt_cons, if_neg (by show ¬ L = l + 1; omega)]
        rfl
      rw [if_neg (by omega), stepLine_no_tags _ _ _ hts, if_neg (by omega)]
      rfl
    · rcases Nat.lt_or_ge l (L) with hB | hB
      · -- l + 1 = L : the tag line, push after output
        have hL : L = l + 1 := by omega
        have hts : tagsAt [(⟨L, a, p, some e, Anchor.standaloneComment⟩ : ResolvedTag)] (l+1)
            = [⟨L, a, p, some e, Anchor.standaloneComment⟩] := by
          rw [tagsAt_cons, if_pos hL]
          rfl
        rw [if_neg (by omega), stepLine_single_standalone _ _ _ _ hts rfl, if_pos (by omega)]
        rfl
      · -- L ≤ l
        have hts : tagsAt [(⟨L, a, p, some e, Anchor.standaloneComment⟩ : ResolvedTag)] (l+1) = [] := by
          rw [tagsAt_cons, if_neg (by show ¬ L = l + 1; omega)]
          rfl
        rcases Nat.lt_or_ge e (l+1) with hC | hC
        · -- past the region end: pop
          by_cases hp : L ≤ l ∧ l ≤ e
          · rw [if_pos hp, stepLine_no_tags _ _ _ hts, popStale_cons_stale _ _ _ _ _ hC,
              if_neg (by omega)]
            rfl
          · rw [if_neg hp, stepLine_no_tags _ _ _ hts, if_neg (by omega)]
            rfl
        · -- inside the region
          rw [if_pos (by omega), stepLine_no_tags _ _ _ hts,
            popStale_cons_live _ _ _ _ _ hC, if_pos (by omega)]

/-- A single standalone tag with a bounded span governs exactly the lines
after its declaration line through its end. -/
theorem single_region_permission (a : ActorKey) (p : Permission) (L e : Nat)
    (h1 : 1 ≤ L) (h2 : L ≤ e) (l : Nat) :
    permissionAt [⟨L, a, p, some e, Anchor.standaloneComment⟩] a l
      = if L + 1 ≤ l ∧ l ≤ e then LineState.perm p else LineState.unguarded := by
  cases l with
  | zero =>
    rw [if_neg (by omega)]
    rfl
  | succ l =>
    have hft : tagsFor [(⟨L, a, p, some e, Anchor.standaloneComment⟩ : ResolvedTag)] a
        = [⟨L, a, p, some e, Anchor.standaloneComment⟩] := by
      rw [tagsFor_cons, if_pos rfl]
      rfl
    show (stepLine (tagsFor [⟨L, a, p, some e, Anchor.standaloneComment⟩] a) (l+1)
        (actorStack (tagsFor [⟨L, a, p, some e, Anchor.standaloneComment⟩] a) l)).1 = _
    rw [hft, single_region_stack a p L e h1 h2 l,
      stepLine_fst_standalone _ _ _ (by
        intro t ht
        have hm := List.mem_of_mem_filter ht
        rcases List.mem_singleton.mp hm with rfl
        rfl)]
    rcases Nat.lt_or_ge l L with hB | hB
    · -- output at or before the tag line is unguarded
      rw [if_neg (by omega), if_neg (by omega)]
      rfl
    · rcases Nat.lt_or_ge e (l+1) with hC | hC
      · -- past the end
        by_cases hp : L ≤ l ∧ l ≤ e
        · rw [if_pos hp, popStale_cons_stale _ _ _ _ _ hC, if_neg (by omega)]
          rfl
        · rw [if_neg hp, if_neg (by omega)]
          rfl
      · -- inside the region
        rw [if_pos (by omega), popStale_cons_live _ _ _ _ _ hC, if_pos (by omega)]
        rfl

/-- The documentation-run length under a pointwise description: `N` doc lines
followed by a non-doc line. -/
theorem docRunLen_eq (doc : Nat → Bool) :
    ∀ (N l fuel : Nat), (∀ i, l ≤ i → i < l + N → doc i = true) → doc (l + N) = false →
      N < fuel → docRunLen doc fuel l = N := by
  intro N
  induction N with
  | zero =>
    intro l fuel hdoc hend hf
    match fuel, hf with
    | fuel+1, _ =>
      show (if doc l then docRunLen doc fuel (l+1) + 1 else 0) = 0
      rw [show doc l = false from by simpa using hend]
      rfl
  | succ N ih =>
    intro l fuel hdoc hend hf
    match fuel, hf with
    | fuel+1, hf =>
      show (if doc l then docRunLen doc fuel (l+1) + 1 else 0) = N + 1
      rw [show doc l = true from hdoc l (Nat.le_refl l) (by omega), if_pos rfl,
        ih (l+1) fuel (fun i hi1 hi2 => hdoc i (by omega) (by omega))
          (by rw [show l + 1 + N = l + (N + 1) from by omega]; exact hend) (by omega)]

/-! ### Claims about the Permission Timeline Builder -/

/-- C4: a standalone tag at line `L` with scope `LineCount n` governs exactly
lines `L+1 .. min (L+n) numLines` for its actor: the tag's own line is not
governed, and an extent reaching past the end of file is clamped there. -/
theorem claim4_line_count_extent (a : ActorKey) (p : Permission) (L n numLines : Nat)
    (h1 : 1 ≤ L) (h2 : L ≤ numLines) (h3 : 1 ≤ n) (l : Nat) :
    permissionAt (resolveTags numLines [⟨L, a, p, ScopeSpec.lineCount n, Anchor.standaloneComment⟩]) a l
      = if L + 1 ≤ l ∧ l ≤ min (L + n) numLines then LineState.perm p
        else LineState.unguarded := by
  have hres : resolveTags numLines [⟨L, a, p, ScopeSpec.lineCount n, Anchor.standaloneComment⟩]
      = [⟨L, a, p, some (min (L + n) numLines), Anchor.standaloneComment⟩] := rfl
  rw [hres]
  exact single_region_permission a p L (min (L + n) numLines) h1 (by omega) l

/-- C4 witness: `n.3` two lines before end-of-file (L = 4, file of 6 lines)
governs exactly lines 5 and 6; line 4 and nothing beyond line 6 is governed. -/
theorem claim4_line_count_extent_witness :
    permissionAt (resolveTags 6 [⟨4, ⟨"ai", none⟩, Permission.noAccess,
        ScopeSpec.lineCount 3, Anchor.standaloneComment⟩]) ⟨"ai", none⟩ 5
      = LineState.perm Permission.noAccess ∧
    permissionAt (resolveTags 6 [⟨4, ⟨"ai", none⟩, Permission.noAccess,
        ScopeSpec.lineCount 3, Anchor.standaloneComment⟩]) ⟨"ai", none⟩ 6
      = LineState.perm Permission.noAccess ∧
    permissionAt (resolveTags 6 [⟨4, ⟨"ai", none⟩, Permission.noAccess,
        ScopeSpec.lineCount 3, Anchor.standaloneComment⟩]) ⟨"ai", none⟩ 4
      = LineState.unguarded ∧
    permissionAt (resolveTags 6 [⟨4, ⟨"ai", none⟩, Permission.noAccess,
        ScopeSpec.lineCount 3, Anchor.standaloneComment⟩]) ⟨"ai", none⟩ 7
      = LineState.unguarded :=
  ⟨(claim4_line_count_extent ⟨"ai", none⟩ Permission.noAccess 4 3 6
      (by decide) (by decide) (by decide) 5).trans (by decide),
   (claim4_line_count_extent ⟨"ai", none⟩ Permission.noAccess 4 3 6
      (by decide) (by decide) (by decide) 6).trans (by decide),
   (claim4_line_count_extent ⟨"ai", none⟩ Permission.noAccess 4 3 6
      (by decide) (by decide) (by decide) 4).trans (by decide),
   (claim4_line_count_extent ⟨"ai", none⟩ Permission.noAccess 4 3 6
      (by decide) (by decide) (by decide) 7).trans (by decide)⟩

/-- C5: a Context tag followed by a maximal run of `N` contiguous
documentation lines and then a non-documentation line governs exactly those
`N` lines; the boundary line `L+N+1` never receives the tag's state. -/
theorem claim5_context_boundary (doc : Nat → Bool) (a : ActorKey) (p : Permission)
    (L N numLines : Nat) (h1 : 1 ≤ L)
    (hdoc : ∀ i, L + 1 ≤ i → i ≤ L + N → doc i = true)
    (hend : doc (L + N + 1) = false)
    (hN : L + N + 1 ≤ numLines) :
    (∀ l, permissionAt [⟨L, a, p, some (contextEnd doc numLines L), Anchor.standaloneComment⟩] a l
        = if L + 1 ≤ l ∧ l ≤ L + N then LineState.perm p else LineState.unguarded) ∧
      permissionAt [⟨L, a, p, some (contextEnd doc numLines L), Anchor.standaloneComment⟩] a
          (L + N + 1)
        = LineState.unguarded := by
  have hce : contextEnd doc numLines L = L + N := by
    unfold contextEnd
    rw [docRunLen_eq doc N (L + 1) (numLines - L)
      (fun i hi1 hi2 => hdoc i hi1 (by omega))
      (by rw [show L + 1 + N = L + N + 1 from by omega]; exact hend)
      (by omega)]
  constructor
  · intro l
    rw [hce]
    exact single_region_permission a p L (L + N) h1 (by omega) l
  · rw [hce, single_region_permission a p L (L + N) h1 (by omega) (L + N + 1),
      if_neg (by omega)]

/-- C5 witness: a context tag at line 1 followed by doc lines 2–4 and code at
line 5 (file of 6 lines) governs exactly lines 2–4. -/
theorem claim5_context_boundary_witness :
    permissionAt [⟨1, ⟨"internal", none⟩, Permission.read,
        some (contextEnd (fun i => decide (2 ≤ i ∧ i ≤ 4)) 6 1), Anchor.standaloneComment⟩]
      ⟨"internal", none⟩ 4 = LineState.perm Permission.read ∧
    permissionAt [⟨1, ⟨"internal", none⟩, Permission.read,
        some (contextEnd (fun i => decide (2 ≤ i ∧ i ≤ 4)) 6 1), Anchor.standaloneComment⟩]
      ⟨"internal", none⟩ 5 = LineState.unguarded := by
  have h := claim5_context_boundary (fun i => decide (2 ≤ i ∧ i ≤ 4)) ⟨"internal", none⟩
    Permission.read 1 3 6 (by decide)
    (fun i hi1 hi2 => by simp only [decide_eq_true_eq]; omega)
    (by decide) (by decide)
  exact ⟨(h.1 4).trans (by decide), h.2⟩

/-- Stack closed form for the bug-1 fixture shape: unbounded write at line 1,
`r.2` at line 3 (resolved end 5). -/
theorem nested_fixture_stack :
    ∀ l, actorStack
        [⟨1, ⟨"ai", none⟩, Permission.write, none, Anchor.standaloneComment⟩,
         ⟨3, ⟨"ai", none⟩, Permission.read, some 5, Anchor.standaloneComment⟩] l
      = if l = 0 then []
        else if l ≤ 2 then [⟨Permission.write, 1, none⟩]
        else if l ≤ 5 then [⟨Permission.read, 3, some 5⟩, ⟨Permission.write, 1, none⟩]
        else [⟨Permission.write, 1, none⟩] := by
  intro l
  induction l with
  | zero => rfl
  | succ l ih =>
    show (stepLine
        [⟨1, ⟨"ai", none⟩, Permission.write, none, Anchor.standaloneComment⟩,
         ⟨3, ⟨"ai", none⟩, Permission.read, some 5, Anchor.standaloneComment⟩] (l+1)
        (actorStack _ l)).2 = _
    rw [ih]
    rcases Nat.lt_or_ge l 6 with h6 | h6
    · interval_cases l <;> decide
    · have hts : tagsAt
          [(⟨1, ⟨"ai", none⟩, Permission.write, none, Anchor.standaloneComment⟩ : ResolvedTag),
           ⟨3, ⟨"ai", none⟩, Permission.read, some 5, Anchor.standaloneComment⟩] (l+1) = [] := by
        rw [tagsAt_cons, if_neg (by show ¬ (1 = l + 1); omega),
          tagsAt_cons, if_neg (by show ¬ (3 = l + 1); omega)]
        rfl
      rw [if_neg (by omega : ¬ l = 0), if_neg (by omega : ¬ l ≤ 2),
        if_neg (by omega : ¬ l ≤ 5), stepLine_no_tags _ _ _ hts, popStale_cons_none,
        if_neg (by omega : ¬ l + 1 = 0), if_neg (by omega : ¬ l + 1 ≤ 2),
        if_neg (by omega : ¬ l + 1 ≤ 5)]

/-- C1: in a file of at least 5 lines carrying `@guard:ai:w` (unbounded,
standalone) at line 1 and `@guard:ai:r.2` at line 3 — plus arbitrary tags for
other actors — the actor `("ai", none)` reads Read at lines 4 and 5 and Write
from line 6 to the end of the file: when the nested bounded region elapses,
the permission restores to the enclosing unbounded region, never to the
unguarded state. -/
theorem claim1_stack_restoration (numLines : Nat) (extra : List GuardTag)
    (h5 : 5 ≤ numLines)
    (hextra : ∀ t ∈ extra, t.actor ≠ (⟨"ai", none⟩ : ActorKey)) :
    permissionAt (resolveTags numLines
        ([⟨1, ⟨"ai", none⟩, Permission.write, ScopeSpec.unbounded, Anchor.standaloneComment⟩,
          ⟨3, ⟨"ai", none⟩, Permission.read, ScopeSpec.lineCount 2, Anchor.standaloneComment⟩]
          ++ extra)) ⟨"ai", none⟩ 4 = LineState.perm Permission.read ∧
      permissionAt (resolveTags numLines
        ([⟨1, ⟨"ai", none⟩, Permission.write, ScopeSpec.unbounded, Anchor.standaloneComment⟩,
          ⟨3, ⟨"ai", none⟩, Permission.read, ScopeSpec.lineCount 2, Anchor.standaloneComment⟩]
          ++ extra)) ⟨"ai", none⟩ 5 = LineState.perm Permission.read ∧
      ∀ l, 6 ≤ l → l ≤ numLines →
        permissionAt (resolveTags numLines
          ([⟨1, ⟨"ai", none⟩, Permission.write, ScopeSpec.unbounded, Anchor.standaloneComment⟩,
            ⟨3, ⟨"ai", none⟩, Permission.read, ScopeSpec.lineCount 2, Anchor.standaloneComment⟩]
            ++ extra)) ⟨"ai", none⟩ l = LineState.perm Permission.write := by
  have hextra' : ∀ t ∈ resolveTags numLines extra, t.actor ≠ (⟨"ai", none⟩ : ActorKey) := by
    intro t ht
    rcases List.mem_map.mp ht with ⟨g, hg, rfl⟩
    exact hextra g hg
  have hmapped : resolveTags numLines
      [⟨1, ⟨"ai", none⟩, Permission.write, ScopeSpec.unbounded, Anchor.standaloneComment⟩,
       ⟨3, ⟨"ai", none⟩, Permission.read, ScopeSpec.lineCount 2, Anchor.standaloneComment⟩]
      = [⟨1, ⟨"ai", none⟩, Permission.write, none, Anchor.standaloneComment⟩,
         ⟨3, ⟨"ai", none⟩, Permission.read, some (min 5 numLines), Anchor.standaloneComment⟩] := rfl
  have happ : resolveTags numLines
      ([⟨1, ⟨"ai", none⟩, Permission.write, ScopeSpec.unbounded, Anchor.standaloneComment⟩,
        ⟨3, ⟨"ai", none⟩, Permission.read, ScopeSpec.lineCount 2, Anchor.standaloneComment⟩]
        ++ extra)
      = resolveTags numLines
          [⟨1, ⟨"ai", none⟩, Permission.write, ScopeSpec.unbounded, Anchor.standaloneComment⟩,
           ⟨3, ⟨"ai", none⟩, Permission.read, ScopeSpec.lineCount 2, Anchor.standaloneComment⟩]
        ++ resolveTags numLines extra := by
    unfold resolveTags
    exact List.map_append _ _ _
  have hmin : min 5 numLines = 5 := min_eq_left (by omega)
  have hcong : tagsFor (resolveTags numLines
      ([⟨1, ⟨"ai", none⟩, Permission.write, ScopeSpec.unbounded, Anchor.standaloneComment⟩,
        ⟨3, ⟨"ai", none⟩, Permission.read, ScopeSpec.lineCount 2, Anchor.standaloneComment⟩]
        ++ extra)) ⟨"ai", none⟩
      = tagsFor [⟨1, ⟨"ai", none⟩, Permission.write, none, Anchor.standaloneComment⟩,
          ⟨3, ⟨"ai", none⟩, Permission.read, some 5, Anchor.standaloneComment⟩] ⟨"ai", none⟩ := by
    rw [happ, tagsFor_append_none _ _ _ hextra', hmapped, hmin]
  refine ⟨?_, ?_, ?_⟩
  · rw [permissionAt_congr _ _ _ hcong 4]
    decide
  · rw [permissionAt_congr _ _ _ hcong 5]
    decide
  · intro l h6 hnl
    rw [permissionAt_congr _ _ _ hcong l]
    obtain ⟨l', rfl⟩ : ∃ l', l = l' + 1 := ⟨l - 1, by omega⟩
    have hffor : tagsFor
        [(⟨1, ⟨"ai", none⟩, Permission.write, none, Anchor.standaloneComment⟩ : ResolvedTag),
         ⟨3, ⟨"ai", none⟩, Permission.read, some 5, Anchor.standaloneComment⟩] ⟨"ai", none⟩
        = [⟨1, ⟨"ai", none⟩, Permission.write, none, Anchor.standaloneComment⟩,
           ⟨3, ⟨"ai", none⟩, Permission.read, some 5, Anchor.standaloneComment⟩] := by
      rw [tagsFor_cons, if_pos rfl, tagsFor_cons, if_pos rfl]
      rfl
    show (stepLine (tagsFor _ _) (l' + 1) (actorStack (tagsFor _ _) l')).1 = _
    rw [hffor, nested_fixture_stack l']
    rcases Nat.lt_or_ge l' 6 with h | h
    · have hl5 : l' = 5 := by omega
      subst hl5
      decide
    · have hts : tagsAt
          [(⟨1, ⟨"ai", none⟩, Permission.write, none, Anchor.standaloneComment⟩ : ResolvedTag),
           ⟨3, ⟨"ai", none⟩, Permission.read, some 5, Anchor.standaloneComment⟩] (l' + 1) = [] := by
        rw [tagsAt_cons, if_neg (by show ¬ (1 = l' + 1); omega),
          tagsAt_cons, if_neg (by show ¬ (3 = l' + 1); omega)]
        rfl
      rw [if_neg (by omega : ¬ l' = 0), if_neg (by omega : ¬ l' ≤ 2),
        if_neg (by omega : ¬ l' ≤ 5), stepLine_no_tags _ _ _ hts, popStale_cons_none]
      rfl

/-- C1 witness: an 8-line file with exactly the two `ai` tags. -/
theorem claim1_stack_restoration_witness :
    permissionAt (resolveTags 8
        ([⟨1, ⟨"ai", none⟩, Permission.write, ScopeSpec.unbounded, Anchor.standaloneComment⟩,
          ⟨3, ⟨"ai", none⟩, Permission.read, ScopeSpec.lineCount 2, Anchor.standaloneComment⟩]
          ++ [])) ⟨"ai", none⟩ 4 = LineState.perm Permission.read ∧
      permissionAt (resolveTags 8
        ([⟨1, ⟨"ai", none⟩, Permission.write, ScopeSpec.unbounded, Anchor.standaloneComment⟩,
          ⟨3, ⟨"ai", none⟩, Permission.read, ScopeSpec.lineCount 2, Anchor.standaloneComment⟩]
          ++ [])) ⟨"ai", none⟩ 5 = LineState.perm Permission.read ∧
      permissionAt (resolveTags 8
        ([⟨1, ⟨"ai", none⟩, Permission.write, ScopeSpec.unbounded, Anchor.standaloneComment⟩,
          ⟨3, ⟨"ai", none⟩, Permission.read, ScopeSpec.lineCount 2, Anchor.standaloneComment⟩]
          ++ [])) ⟨"ai", none⟩ 8 = LineState.perm Permission.write := by
  have h := claim1_stack_restoration 8 [] (by omega)
    (fun t ht => absurd ht (List.not_mem_nil t))
  exact ⟨h.1, h.2.1, h.2.2 8 (by omega) (by omega)⟩

/-- Stack closed form for two sequential sibling bounded regions: each push
snapshots the actual prior state at its own start line. -/
theorem sibling_stack (a : ActorKey) (p1 p2 : Permission) (L1 e1 L2 e2 : Nat)
    (h1 : 1 ≤ L1) (h2 : L1 ≤ e1) (h3 : e1 < L2) (h4 : L2 ≤ e2) :
    ∀ l, actorStack
        [⟨L1, a, p1, some e1, Anchor.standaloneComment⟩,
         ⟨L2, a, p2, some e2, Anchor.standaloneComment⟩] l
      = if L1 ≤ l ∧ l ≤ e1 then [⟨p1, L1, some e1⟩]
        else if L2 ≤ l ∧ l ≤ e2 then [⟨p2, L2, some e2⟩]
        else [] := by
  intro l
  induction l with
  | zero =>
    rw [if_neg (by omega), if_neg (by omega)]
    rfl
  | succ l ih =>
    show (stepLine
        [⟨L1, a, p1, some e1, Anchor.standaloneComment⟩,
         ⟨L2, a, p2, some e2, Anchor.standaloneComment⟩] (l+1) (actorStack _ l)).2 = _
    rw [ih]
    by_cases hL1 : L1 = l + 1
    · have hts : tagsAt
          [(⟨L1, a, p1, some e1, Anchor.standaloneComment⟩ : ResolvedTag),
           ⟨L2, a, p2, some e2, Anchor.standaloneComment⟩] (l+1)
          = [⟨L1, a, p1, some e1, Anchor.standaloneComment⟩] := by
        rw [tagsAt_cons, if_pos hL1, tagsAt_cons, if_neg (by show ¬ L2 = l + 1; omega)]
        rfl
      rw [if_neg (by omega), if_neg (by omega),
        stepLine_single_standalone _ _ _ _ hts rfl, if_pos (by omega)]
      rfl
    · by_cases hL2 : L2 = l + 1
      · have hts : tagsAt
            [(⟨L1, a, p1, some e1, Anchor.standaloneComment⟩ : ResolvedTag),
             ⟨L2, a, p2, some e2, Anchor.standaloneComment⟩] (l+1)
            = [⟨L2, a, p2, some e2, Anchor.standaloneComment⟩] := by
          rw [tagsAt_cons, if_neg hL1, tagsAt_cons, if_pos hL2]
          rfl
        by_cases hp : L1 ≤ l ∧ l ≤ e1
        · rw [if_pos hp, stepLine_single_standalone _ _ _ _ hts rfl,
            popStale_cons_stale _ _ _ _ _ (by omega), if_neg (by omega), if_pos (by omega)]
          rfl
        · rw [if_neg hp, if_neg (by omega),
            stepLine_single_standalone _ _ _ _ hts rfl, if_neg (by omega), if_pos (by omega)]
          rfl
      · have hts : tagsAt
            [(⟨L1, a, p1, some e1, Anchor.standaloneComment⟩ : ResolvedTag),
             ⟨L2, a, p2, some e2, Anchor.standaloneComment⟩] (l+1) = [] := by
          rw [tagsAt_cons, if_neg hL1, tagsAt_cons, if_neg hL2]
          rfl
        rw [stepLine_no_tags _ _ _ hts]
        by_cases hp1 : L1 ≤ l ∧ l ≤ e1
        · rw [if_pos hp1]
          by_cases hin : l + 1 ≤ e1
          · rw [popStale_cons_live _ _ _ _ _ hin, if_pos (by omega)]
          · rw [popStale_cons_stale _ _ _ _ _ (by omega), if_neg (by omega),
              if_neg (by omega)]
            rfl
        · rw [if_neg hp1]
          by_cases hp2 : L2 ≤ l ∧ l ≤ e2
          · rw [if_pos hp2]
            by_cases hin : l + 1 ≤ e2
            · rw [popStale_cons_live _ _ _ _ _ hin, if_neg (by omega), if_pos (by omega)]
            · rw [popStale_cons_stale _ _ _ _ _ (by omega), if_neg (by omega),
                if_neg (by omega)]
              rfl
          · rw [if_neg hp2, if_neg (by omega), if_neg (by omega)]
            rfl

/-- C3: two sequential sibling bounded regions (the second tag's line lies
after the first region's end) each govern exactly their own resolved range;
at every other line — including the gap and every line after the second
region's extent elapses — the permission is what was active before the tags
(unguarded), never the first region's bookkeeping state. -/
theorem claim3_sibling_independence (a : ActorKey) (p1 p2 : Permission)
    (L1 e1 L2 e2 : Nat)
    (h1 : 1 ≤ L1) (h2 : L1 ≤ e1) (h3 : e1 < L2) (h4 : L2 ≤ e2) (l : Nat) :
    permissionAt
        [⟨L1, a, p1, some e1, Anchor.standaloneComment⟩,
         ⟨L2, a, p2, some e2, Anchor.standaloneComment⟩] a l
      = if L1 + 1 ≤ l ∧ l ≤ e1 then LineState.perm p1
        else if L2 + 1 ≤ l ∧ l ≤ e2 then LineState.perm p2
        else LineState.unguarded := by
  cases l with
  | zero =>
    rw [if_neg (by omega), if_neg (by omega)]
    rfl
  | succ l =>
    have hffor : tagsFor
        [(⟨L1, a, p1, some e1, Anchor.standaloneComment⟩ : ResolvedTag),
         ⟨L2, a, p2, some e2, Anchor.standaloneComment⟩] a
        = [⟨L1, a, p1, some e1, Anchor.standaloneComment⟩,
           ⟨L2, a, p2, some e2, Anchor.standaloneComment⟩] := by
      rw [tagsFor_cons, if_pos rfl, tagsFor_cons, if_pos rfl]
      rfl
    show (stepLine (tagsFor _ _) (l + 1) (actorStack (tagsFor _ _) l)).1 = _
    rw [hffor, sibling_stack a p1 p2 L1 e1 L2 e2 h1 h2 h3 h4 l,
      stepLine_fst_standalone _ _ _ (by
        intro t ht
        have hm := List.mem_of_mem_filter ht
        rcases List.mem_cons.mp hm with rfl | hm2
        · rfl
        · rcases List.mem_singleton.mp hm2 with rfl
          rfl)]
    by_cases hp1 : L1 ≤ l ∧ l ≤ e1
    · rw [if_pos hp1]
      by_cases hin : l + 1 ≤ e1
      · rw [popStale_cons_live _ _ _ _ _ hin, if_pos (by omega)]
        rfl
      · rw [popStale_cons_stale _ _ _ _ _ (by omega), if_neg (by omega), if_neg (by omega)]
        rfl
    · rw [if_neg hp1]
      by_cases hp2 : L2 ≤ l ∧ l ≤ e2
      · rw [if_pos hp2]
        by_cases hin : l + 1 ≤ e2
        · rw [popStale_cons_live _ _ _ _ _ hin, if_neg (by omega), if_pos (by omega)]
          rfl
        · rw [popStale_cons_stale _ _ _ _ _ (by omega), if_neg (by omega), if_neg (by omega)]
          rfl
      · rw [if_neg hp2, if_neg (by omega), if_neg (by omega)]
        rfl

/-- C3 witness: two sibling read blocks at lines 2–4 and 6–8 of a file;
line 7 is governed by the second block only, lines 5 and 9 are unguarded. -/
theorem claim3_sibling_independence_witness :
    permissionAt
        [⟨2, ⟨"human", none⟩, Permission.read, some 4, Anchor.standaloneComment⟩,
         ⟨6, ⟨"human", none⟩, Permission.read, some 8, Anchor.standaloneComment⟩]
        ⟨"human", none⟩ 7 = LineState.perm Permission.read ∧
      permissionAt
        [⟨2, ⟨"human", none⟩, Permission.read, some 4, Anchor.standaloneComment⟩,
         ⟨6, ⟨"human", none⟩, Permission.read, some 8, Anchor.standaloneComment⟩]
        ⟨"human", none⟩ 5 = LineState.unguarded ∧
      permissionAt
        [⟨2, ⟨"human", none⟩, Permission.read, some 4, Anchor.standaloneComment⟩,
         ⟨6, ⟨"human", none⟩, Permission.read, some 8, Anchor.standaloneComment⟩]
        ⟨"human", none⟩ 9 = LineState.unguarded :=
  ⟨(claim3_sibling_independence ⟨"human", none⟩ Permission.read Permission.read 2 4 6 8
      (by decide) (by decide) (by decide) (by decide) 7).trans (by decide),
   (claim3_sibling_independence ⟨"human", none⟩ Permission.read Permission.read 2 4 6 8
      (by decide) (by decide) (by decide) (by decide) 5).trans (by decide),
   (claim3_sibling_independence ⟨"human", none⟩ Permission.read Permission.read 2 4 6 8
      (by decide) (by decide) (by decide) (by decide) 9).trans (by decide)⟩
